import Mathlib

/-!
Verification development for the math-problem-assistant repository: a
sequence-to-sequence (encoder / Bahdanau attention / decoder) model notebook
together with its dataset-generator notebook.  The definitions below are a
shallow embedding of the notebook's Python code: machine floats are modelled
as real numbers, Python dicts as insertion-ordered association lists, and the
PyTorch modules as explicit functions on lists of reals.  Stochastic batching
and gradient updates are outside the scope of the claims treated here; the
forward computations, the tokenizer, the training-loop control flow and loss
accumulation, the greedy decoding loops, and the dataset generator are
embedded faithfully.
-/

namespace MathAssistant

/-! ## Vocabulary and tokenizer

The notebook keeps `word_to_index` as a Python dict mapping words to integer
ids; insertion order is preserved and keys are only ever appended (a word is
assigned `len(word_to_index)` exactly when it is absent).  We model the dict
as an insertion-ordered association list, looked up with `List.lookup`
(first match; keys are unique by construction, so this agrees with Python
dict lookup). -/

/-- ASCII lowercasing of one character, as Python's `str.lower` acts on the
ASCII range (the corpus produced by `num2words` is ASCII). -/
def lowerChar (c : Char) : Char :=
  if 'A' ≤ c ∧ c ≤ 'Z' then Char.ofNat (c.toNat + 32) else c

/-- Embedding of Python's `str.lower()` on a word, mapping `lowerChar` over
the characters. -/
def lower (s : String) : String := ⟨s.data.map lowerChar⟩

/-- Body of the `if word not in word_to_index: word_to_index[word] = len(word_to_index)`
statement of `tokenize`: one vocabulary update for one word. -/
def vstep (v : List (String × Nat)) (word : String) : List (String × Nat) :=
  if (List.lookup word v).isSome then v else v ++ [(word, v.length)]

/-- Embedding of the notebook's `tokenize(sentence, word_to_index)`.  The
sentence is modelled already split on whitespace (Python does
`sentence.lower().split()`; lowercasing the whole sentence and then
splitting on whitespace equals splitting and then lowercasing each word).
Returns the token list together with the updated vocabulary (the Python
function mutates the dict in place). -/
def tokenize (sentence : List String) (w2i : List (String × Nat)) :
    List Nat × List (String × Nat) :=
  (sentence.map lower).foldl
    (fun acc word =>
      (acc.1 ++ [(List.lookup word (vstep acc.2 word)).getD 0], vstep acc.2 word))
    ([], w2i)

/-- Python dict assignment `m[k] = val`: overwrite in place when the key is
present, append otherwise. -/
def dictSet (m : List (Nat × String)) (k : Nat) (val : String) : List (Nat × String) :=
  if (List.lookup k m).isSome then
    m.map (fun p => if p.1 = k then (p.1, val) else p)
  else m ++ [(k, val)]

/-- Embedding of `index_to_word = {v: k for k, v in word_to_index.items()}`:
a dict comprehension over the items of `word_to_index`, inserting the swapped
pairs one after the other with Python dict-assignment semantics. -/
def index_to_word (w2i : List (String × Nat)) : List (Nat × String) :=
  w2i.foldl (fun m p => dictSet m p.2 p.1) []

/-- The reserved-token state the second (dynamic-vocabulary) part of the
notebook starts from: `{"<SOS>": 0, "<EOS>": 1, "<PAD>": 2}`. -/
def initialVocab : List (String × Nat) :=
  [("<SOS>", 0), ("<EOS>", 1), ("<PAD>", 2)]

/-- Vocabulary obtained by tokenizing a list of sentences in order starting
from the reserved-token state, as the notebook does over the CSV corpus. -/
def corpusVocab (sentences : List (List String)) : List (String × Nat) :=
  sentences.foldl (fun v s => (tokenize s v).2) initialVocab

/-! ## Dataset generator

Embedding of `SimpleMathProblemsGenerator.generate_problem` from the
companion notebook.  Randomness is modelled by passing the sampled values in:
`num1` and `num2` are the two `random.randint(1, 100)` draws, `resample` the
draw the `if operation == "divided by" and num2 == 0` branch would take, and
`opIdx` the index `random.choice` picked in the operations list. -/

/-- Python's `round` at 0 decimals: round half to even (banker's rounding). -/
def roundHalfEven (q : ℚ) : ℤ :=
  if q - ⌊q⌋ < 1/2 then ⌊q⌋
  else if 1/2 < q - ⌊q⌋ then ⌊q⌋ + 1
  else if ⌊q⌋ % 2 = 0 then ⌊q⌋ else ⌊q⌋ + 1

/-- Python's `round(q, 2)`: banker's rounding to two decimal places. -/
def pyRound2 (q : ℚ) : ℚ := (roundHalfEven (q * 100) : ℚ) / 100

/-- The generator's `self.operations` list: name paired with the function
applied to the two operands; the division entry returns `None` (here `none`)
on a zero divisor, matching `round(x / y, 2) if y != 0 else None`. -/
def operations : List (String × (ℚ → ℚ → Option ℚ)) :=
  [("plus", fun x y => some (x + y)),
   ("minus", fun x y => some (x - y)),
   ("times", fun x y => some (x * y)),
   ("divided by", fun x y => if y ≠ 0 then some (pyRound2 (x / y)) else none)]

/-- Result record of one `generate_problem` call (before word conversion). -/
structure Problem where
  opName : String
  num1used : Nat
  num2used : Nat
  result : Option ℚ

/-- Embedding of one iteration of `generate_problem`'s body: choose the
operation, re-draw `num2` if the operation is division and `num2` is zero,
and apply the operation. -/
def generate_problem (num1 num2 resample : Nat) (opIdx : Fin 4) : Problem :=
  let op := operations.get ⟨opIdx.val, opIdx.isLt⟩
  let num2' := if op.1 = "divided by" ∧ num2 = 0 then resample else num2
  { opName := op.1
    num1used := num1
    num2used := num2'
    result := op.2 (num1 : ℚ) (num2' : ℚ) }

/-- Embedding of the `result_word` expression: the word form of the result
when it exists, the string `"undefined"` when the operation returned `None`.
The external `num2words` conversion is abstracted as the function `n2w`. -/
def result_word (n2w : ℚ → String) (result : Option ℚ) : String :=
  match result with
  | some r => n2w r
  | none => "undefined"

/-! ## Tensor primitives

Vectors are lists of reals, matrices lists of row vectors.  These are the
elementwise and matrix-vector operations the embedded modules use; PyTorch
floats are modelled as real numbers. -/

/-- Dot product of two vectors (truncating to the shorter, as shapes always
agree in the source). -/
def dotV (xs ys : List ℝ) : ℝ := (List.zipWith (· * ·) xs ys).sum

/-- Elementwise vector addition. -/
def addV (xs ys : List ℝ) : List ℝ := List.zipWith (· + ·) xs ys

/-- Elementwise (Hadamard) vector product. -/
def mulV (xs ys : List ℝ) : List ℝ := List.zipWith (· * ·) xs ys

/-- Matrix-vector product: one dot product per row. -/
def matVec (w : List (List ℝ)) (x : List ℝ) : List ℝ := w.map (fun row => dotV row x)

/-- An `nn.Linear` layer: `W x + b`. -/
def linear (w : List (List ℝ)) (b x : List ℝ) : List ℝ := addV (matVec w x) b

/-- Logistic sigmoid, used by the LSTM gates. -/
noncomputable def sigmoid (x : ℝ) : ℝ := 1 / (1 + Real.exp (-x))

/-- Embedding of `torch.softmax` along a vector: exponential normalization. -/
noncomputable def softmax (xs : List ℝ) : List ℝ :=
  xs.map (fun x => Real.exp x / (xs.map Real.exp).sum)

/-- Index of the first maximal entry, `torch.argmax` on a vector ( `0` on the
empty vector, which never arises in the source). -/
noncomputable def argmaxAux : List ℝ → Nat → Nat → ℝ → Nat
  | [], _, best, _ => best
  | x :: xs, i, best, bestVal =>
      if bestVal < x then argmaxAux xs (i + 1) i x else argmaxAux xs (i + 1) best bestVal

/-- Embedding of `output.argmax(1).item()` for a single-row batch. -/
noncomputable def argmax : List ℝ → Nat
  | [] => 0
  | x :: xs => argmaxAux xs 1 0 x

/-- Attention-weighted sum of the encoder outputs: the
`torch.bmm(attention_weights.unsqueeze(1), encoder_outputs)` context vector
for a single batch element. -/
def weightedSum (w : List ℝ) (rows : List (List ℝ)) : List ℝ :=
  match List.zipWith (fun a row => row.map (fun x => a * x)) w rows with
  | [] => []
  | r :: rs => rs.foldl addV r

/-! ## Attention

Embedding of `Attention.forward(hidden, encoder_outputs)` for one batch
element.  Per encoder timestep the decoder hidden state is concatenated with
the encoder output (`torch.cat(..., dim=2)` after the `repeat`), pushed
through the learned affine map `self.attn` and `tanh`, and reduced to a
scalar with the learned vector `v` (the `bmm` with `v`); the scores are then
normalized with `torch.softmax`. -/

/-- Attention parameters: the `self.attn` linear layer (weight and bias) and
the learned score vector `self.v`. -/
structure AttentionParams where
  attnW : List (List ℝ)
  attnB : List ℝ
  v : List ℝ

/-- Embedding of `Attention.forward`: softmax-normalized alignment scores,
one per encoder timestep. -/
noncomputable def Attention.forward (p : AttentionParams) (hidden : List ℝ)
    (encoder_outputs : List (List ℝ)) : List ℝ :=
  softmax (encoder_outputs.map
    (fun eo => dotV p.v ((linear p.attnW p.attnB (hidden ++ eo)).map Real.tanh)))

/-! ## LSTM, Encoder, Decoder

Single-layer LSTM in PyTorch gate order (input, forget, cell, output):
`gates = W_ih x + b_ih + W_hh h + b_hh`, split into four chunks of the
hidden size.  The notebook's modules run with batch size one at inference,
which is the shape embedded here (one list of reals per timestep). -/

/-- Parameters of a single `nn.LSTM` layer. -/
structure LSTMParams where
  hiddenSize : Nat
  wih : List (List ℝ)
  whh : List (List ℝ)
  bih : List ℝ
  bhh : List ℝ

/-- One LSTM cell step: new hidden and cell state from input `x` and previous
`(h, c)`. -/
noncomputable def lstmCell (p : LSTMParams) (x h c : List ℝ) : List ℝ × List ℝ :=
  let gates := addV (addV (matVec p.wih x) p.bih) (addV (matVec p.whh h) p.bhh)
  let i := (gates.take p.hiddenSize).map sigmoid
  let f := ((gates.drop p.hiddenSize).take p.hiddenSize).map sigmoid
  let g := ((gates.drop (2 * p.hiddenSize)).take p.hiddenSize).map Real.tanh
  let o := ((gates.drop (3 * p.hiddenSize)).take p.hiddenSize).map sigmoid
  let c' := addV (mulV f c) (mulV i g)
  (mulV o (c'.map Real.tanh), c')

/-- Run the LSTM over a sequence of inputs, collecting the hidden state at
every timestep (the `outputs` tensor) and the final `(hidden, cell)` pair. -/
noncomputable def lstmSeq (p : LSTMParams) : List (List ℝ) → List ℝ → List ℝ →
    List (List ℝ) × (List ℝ × List ℝ)
  | [], h, c => ([], (h, c))
  | x :: xs, h, c =>
      let hc := lstmCell p x h c
      let rest := lstmSeq p xs hc.1 hc.2
      (hc.1 :: rest.1, rest.2)

/-- Parameters of the `Encoder` module: embedding table plus its LSTM.  The
`nn.Dropout` layer constructed in `__init__` is never applied in `forward`,
so it has no parameter here. -/
structure EncoderParams where
  lstm : LSTMParams
  embedding : List (List ℝ)

/-- Embedding of `Encoder.forward(input_seq)` for one batch element: look
each token up in the embedding table and run the LSTM from the all-zero
initial state (PyTorch's default when no state is passed). -/
noncomputable def Encoder.forward (p : EncoderParams) (input_seq : List Nat) :
    List (List ℝ) × (List ℝ × List ℝ) :=
  lstmSeq p.lstm (input_seq.map (fun t => p.embedding.getD t []))
    (List.replicate p.lstm.hiddenSize 0) (List.replicate p.lstm.hiddenSize 0)

/-- Parameters of the `Decoder` module: embedding table, LSTM, the `self.fc`
projection, and the attention sub-module.  As in the encoder, the dropout
layer is constructed but never applied in `forward`. -/
structure DecoderParams where
  lstm : LSTMParams
  embedding : List (List ℝ)
  fcW : List (List ℝ)
  fcB : List ℝ
  attn : AttentionParams

/-- Result of one decoder step: vocabulary logits, new hidden and cell
state, and the attention weights used. -/
structure DecOut where
  output : List ℝ
  hidden : List ℝ
  cell : List ℝ
  attention_weights : List ℝ

/-- Embedding of `Decoder.forward(input, hidden, cell, encoder_outputs)` for
one batch element: embed the token, advance the LSTM one step, compute
attention from the new hidden state, build the context vector, and project
the concatenated LSTM output and context through `self.fc`. -/
noncomputable def Decoder.forward (p : DecoderParams) (input : Nat)
    (hidden cell : List ℝ) (encoder_outputs : List (List ℝ)) : DecOut :=
  let embedded := p.embedding.getD input []
  let hc := lstmCell p.lstm embedded hidden cell
  let aw := Attention.forward p.attn hc.1 encoder_outputs
  let context := weightedSum aw encoder_outputs
  { output := linear p.fcW p.fcB (hc.1 ++ context)
    hidden := hc.1
    cell := hc.2
    attention_weights := aw }

/-! ## Randomness accounting for the forward passes

The only stochastic layers the modules own are the `nn.Dropout` layers, and
neither `Encoder.forward` nor `Decoder.forward` ever applies them, so the
forward passes contain no sampling operation.  To state this, the variants
below thread an explicit stream of random draws through the forward pass;
since no operation of the source consumes randomness, the stream passes
through untouched. -/

/-- Variant of `Encoder.forward` with an explicit randomness stream: the body contains
no sampling operation, so the stream is returned unconsumed. -/
noncomputable def Encoder.forwardRng (p : EncoderParams) (input_seq : List Nat)
    (rng : List ℝ) : (List (List ℝ) × (List ℝ × List ℝ)) × List ℝ :=
  (Encoder.forward p input_seq, rng)

/-- Variant of `Decoder.forward` with an explicit randomness stream: the body contains
no sampling operation, so the stream is returned unconsumed. -/
noncomputable def Decoder.forwardRng (p : DecoderParams) (input : Nat)
    (hidden cell : List ℝ) (encoder_outputs : List (List ℝ))
    (rng : List ℝ) : DecOut × List ℝ :=
  (Decoder.forward p input hidden cell encoder_outputs, rng)

/-! ## Training loop

Embedding of the timestep loop of `train` for one batch.  The decoder,
including its recurrent state threading, is abstracted as a function
`d : List Nat → σ → List (List ℝ) × σ` from the batched decoder input and
opaque state to the batch of logit rows and the next state; the claims about
the loop hold for every such decoder.  The loss criterion is
`nn.CrossEntropyLoss(ignore_index=pad)` with its default mean reduction:
per-example negative log-softmax at the target token, averaged over the
examples whose target is not the pad id. -/

/-- Per-example cross-entropy: `-log softmax(logits)[target]`, i.e.
`log (Σ exp logits) - logits[target]`. -/
noncomputable def crossEntropy (logits : List ℝ) (target : Nat) : ℝ :=
  Real.log ((logits.map Real.exp).sum) - logits.getD target 0

/-- Embedding of `nn.CrossEntropyLoss(ignore_index=pad)` with mean reduction over a batch
of logit rows and target tokens: entries whose target is `pad` are ignored,
the rest are averaged. -/
noncomputable def criterionMean (pad : Nat) (outputs : List (List ℝ))
    (targets : List Nat) : ℝ :=
  (List.zipWith (fun o y => if y = pad then 0 else crossEntropy o y) outputs targets).sum /
    ((targets.countP (fun y => decide (y ≠ pad)) : ℝ))

/-- The per-example target lengths,
`(target_seq != pad).sum(dim=1)`: count of non-pad tokens per row. -/
def targetLengths (pad : Nat) (targets : List (List Nat)) : List Nat :=
  targets.map (fun row => row.countP (fun y => decide (y ≠ pad)))

/-- Embedding of `target_lengths.max().item()`: the maximum target length in the batch. -/
def maxTargetLength (lengths : List Nat) : Nat := lengths.foldr max 0

/-- The batch column `target_seq[:, t]`. -/
def column (targets : List (List Nat)) (t : Nat) : List Nat :=
  targets.map (fun row => row.getD t 0)

/-- Embedding of `still_active.float()`: indicator vector of the examples whose target
length still covers timestep `t`. -/
def stillActiveF (lengths : List Nat) (t : Nat) : List ℝ :=
  lengths.map (fun l => if t < l then 1 else 0)

/-- Count of active examples at timestep `t` (`still_active.sum()`). -/
def activeCount (lengths : List Nat) (t : Nat) : Nat :=
  lengths.countP (fun l => decide (t < l))

/-- The loss the loop adds at one timestep, exactly as written in the
source: `(criterion(output, target_seq[:, t]) * still_active.float()).sum()
/ still_active.sum()`. -/
noncomputable def stepLoss (pad : Nat) (lengths : List Nat) (t : Nat)
    (outputs : List (List ℝ)) (tgtcol : List Nat) : ℝ :=
  ((stillActiveF lengths t).map (fun a => criterionMean pad outputs tgtcol * a)).sum /
    (stillActiveF lengths t).sum

/-- The timestep loop of `train` for one batch: starting at timestep `t`
with decoder input `inp` and decoder state `s`, run for at most `fuel` more
steps (the source iterates `range(max_target_length)`), stopping early when
no example is active.  Returns the list of decoder inputs used at each
executed step, the logits produced at each executed step, and the
accumulated loss. -/
noncomputable def trainGo {σ : Type} (d : List Nat → σ → List (List ℝ) × σ)
    (pad : Nat) (targets : List (List Nat)) (lengths : List Nat) :
    Nat → Nat → List Nat → σ → List (List Nat) × List (List (List ℝ)) × ℝ
  | 0, _, _, _ => ([], [], 0)
  | fuel + 1, t, inp, s =>
      if lengths.any (fun l => decide (t < l)) then
        let r := d inp s
        let rest := trainGo d pad targets lengths fuel (t + 1) (column targets t) r.2
        (inp :: rest.1, r.1 :: rest.2.1,
          stepLoss pad lengths t r.1 (column targets t) + rest.2.2)
      else ([], [], 0)

/-- The per-batch body of `train`: compute target lengths and the maximum
target length, start from the broadcast `<SOS>` input, and run the timestep
loop. -/
noncomputable def train {σ : Type} (d : List Nat → σ → List (List ℝ) × σ)
    (pad sos : Nat) (targets : List (List Nat)) (s0 : σ) :
    List (List Nat) × List (List (List ℝ)) × ℝ :=
  trainGo d pad targets (targetLengths pad targets)
    (maxTargetLength (targetLengths pad targets)) 0
    (List.replicate targets.length sos) s0

/-- Modelled from the spec: the per-step masked mean loss — per-example
cross-entropy against the ground-truth token, zeroed for inactive examples,
summed and divided by the count of active examples.  Stated from the spec's
words to compare with the loss the code accumulates. -/
noncomputable def maskedMeanSpec (pad : Nat) (lengths : List Nat) (t : Nat)
    (outputs : List (List ℝ)) (tgtcol : List Nat) : ℝ :=
  (List.zipWith (fun o ly => if t < ly.1 then crossEntropy o ly.2 else 0)
      outputs (lengths.zip tgtcol)).sum / (activeCount lengths t : ℝ)

/-- Contiguity of padding in a target row: once the pad id appears, every
later entry is the pad id.  This is the shape `pad_sequence` produces. -/
def paddedOk (pad : Nat) : List Nat → Bool
  | [] => true
  | x :: xs => if x = pad then xs.all (fun y => decide (y = pad)) else paddedOk pad xs

/-! ## Greedy decoding (inference)

Embeddings of `generate_predictions` and of the inference loop of `test`.
Both tokenize the input by pure lookup (a missing word raises `KeyError`,
modelled as `none`), run the encoder once, and then autoregressively drive
`Decoder.forward` from the `<SOS>` token, feeding back the argmax prediction
and stopping at the end-token id or after `max_target_length` steps. -/

/-- Inference-time tokenization
`[word_to_index[word] for word in input_sentence.split()]`: every word must
already be present, otherwise the lookup raises (modelled as `none`). -/
def lookupTokens (w2i : List (String × Nat)) : List String → Option (List Nat)
  | [] => some []
  | w :: ws =>
      match List.lookup w w2i, lookupTokens w2i ws with
      | some id, some rest => some (id :: rest)
      | _, _ => none

/-- Word conversion `[index_to_word[token] for token in tokens]`: every id
must be present in the inverse map, otherwise the lookup raises. -/
def lookupWords (i2w : List (Nat × String)) : List Nat → Option (List String)
  | [] => some []
  | t :: ts =>
      match List.lookup t i2w, lookupWords i2w ts with
      | some w, some rest => some (w :: rest)
      | _, _ => none

/-- The decoding loop of `generate_predictions`: feed back the argmax
prediction, stop at `eos` (which is not appended) or when the step budget is
exhausted. -/
noncomputable def greedyLoop (p : DecoderParams) (encoder_outputs : List (List ℝ))
    (eos : Nat) : Nat → Nat → List ℝ → List ℝ → List Nat
  | 0, _, _, _ => []
  | fuel + 1, input, h, c =>
      let r := Decoder.forward p input h c encoder_outputs
      let pred := argmax r.output
      if pred = eos then []
      else pred :: greedyLoop p encoder_outputs eos fuel pred r.hidden r.cell

/-- Embedding of `generate_predictions`: tokenize, encode, decode greedily.
Returns the decoded token-id sequence (the source maps it through
`index_to_word`; the id sequence is what the loop builds). -/
noncomputable def generate_predictions (ep : EncoderParams) (dp : DecoderParams)
    (words : List String) (w2i : List (String × Nat)) (max_target_length sos eos : Nat) :
    Option (List Nat) :=
  match lookupTokens w2i words with
  | none => none
  | some input_tokens =>
      let er := Encoder.forward ep input_tokens
      some (greedyLoop dp er.1 eos max_target_length sos er.2.1 er.2.2)

/-- The decoding loop of `test`: same control flow as `greedyLoop`, but also
collecting the attention-weight vector of every emitted step (the source
appends to `attention_matrices` in lockstep with `output_sequence`). -/
noncomputable def testLoop (p : DecoderParams) (encoder_outputs : List (List ℝ))
    (eos : Nat) : Nat → Nat → List ℝ → List ℝ → List Nat × List (List ℝ)
  | 0, _, _, _ => ([], [])
  | fuel + 1, input, h, c =>
      let r := Decoder.forward p input h c encoder_outputs
      let pred := argmax r.output
      if pred = eos then ([], [])
      else
        let rest := testLoop p encoder_outputs eos fuel pred r.hidden r.cell
        (pred :: rest.1, r.attention_weights :: rest.2)

/-- Embedding of `np.vstack`: fails (raises `ValueError`) on an empty list of blocks. -/
def vstack {α : Type} (blocks : List α) : Option (List α) :=
  match blocks with
  | [] => none
  | _ => some blocks

/-- Embedding of `test`: tokenize, encode, run the collecting decode loop,
convert input and output tokens to words (a missing id raises, modelled as
`none`), stack the attention matrices with `np.vstack` (which fails when no
step was recorded), and return the decoded words. -/
noncomputable def test (ep : EncoderParams) (dp : DecoderParams)
    (words : List String) (w2i : List (String × Nat)) (i2w : List (Nat × String))
    (max_target_length sos eos : Nat) : Option (List String) :=
  match lookupTokens w2i words with
  | none => none
  | some input_tokens =>
      let er := Encoder.forward ep input_tokens
      let r := testLoop dp er.1 eos max_target_length sos er.2.1 er.2.2
      match lookupWords i2w input_tokens, lookupWords i2w r.1 with
      | some _, some outWords =>
          match vstack r.2 with
          | none => none
          | some _ => some outWords
      | _, _ => none

/-! ## Helper lemmas -/

theorem sum_map_div (l : List ℝ) (f : ℝ → ℝ) (s : ℝ) :
    (l.map (fun x => f x / s)).sum = (l.map f).sum / s := by
  induction l with
  | nil => simp
  | cons a l ih => simp [ih, add_div]

theorem exp_sum_pos (l : List ℝ) (h : l ≠ []) : 0 < (l.map Real.exp).sum := by
  apply List.sum_pos
  · intro a ha
    obtain ⟨x, _, rfl⟩ := List.mem_map.mp ha
    exact Real.exp_pos x
  · simpa using h

theorem softmax_length (xs : List ℝ) : (softmax xs).length = xs.length := by
  simp [softmax]

theorem softmax_nonneg (xs : List ℝ) : ∀ y ∈ softmax xs, 0 ≤ y := by
  intro y hy
  obtain ⟨x, hx, rfl⟩ := List.mem_map.mp hy
  have hne : xs ≠ [] := by rintro rfl; simp at hx
  exact div_nonneg (Real.exp_pos x).le (exp_sum_pos xs hne).le

theorem softmax_sum (xs : List ℝ) (h : xs ≠ []) : (softmax xs).sum = 1 := by
  unfold softmax
  rw [sum_map_div]
  exact div_self (ne_of_gt (exp_sum_pos xs h))

/-! ## Claims -/

/-- C3: for every decoder hidden state and every non-empty encoder output
sequence, `Attention.forward` returns a vector whose length equals the
number of encoder timesteps, whose entries are all non-negative, and whose
entries sum to 1. -/
theorem attention_forward_is_distribution (p : AttentionParams) (hidden : List ℝ)
    (encoder_outputs : List (List ℝ)) (h : 0 < encoder_outputs.length) :
    (Attention.forward p hidden encoder_outputs).length = encoder_outputs.length ∧
    (∀ x ∈ Attention.forward p hidden encoder_outputs, 0 ≤ x) ∧
    (Attention.forward p hidden encoder_outputs).sum = 1 := by
  have hne : encoder_outputs.map
      (fun eo => dotV p.v ((linear p.attnW p.attnB (hidden ++ eo)).map Real.tanh)) ≠ [] := by
    intro hcon
    rw [List.map_eq_nil_iff] at hcon
    subst hcon
    simp at h
  refine ⟨?_, ?_, ?_⟩
  · rw [Attention.forward, softmax_length, List.length_map]
  · exact softmax_nonneg _
  · exact softmax_sum _ hne

/-- Witness for C3 at a concrete single-timestep input. -/
theorem attention_forward_is_distribution_witness :
    (Attention.forward ⟨[], [], []⟩ [] [[(0 : ℝ)]]).length = 1 ∧
    (∀ x ∈ Attention.forward ⟨[], [], []⟩ [] [[(0 : ℝ)]], 0 ≤ x) ∧
    (Attention.forward ⟨[], [], []⟩ [] [[(0 : ℝ)]]).sum = 1 :=
  attention_forward_is_distribution ⟨[], [], []⟩ [] [[(0 : ℝ)]] (by decide)

/-- C9: for every encoder output sequence of length exactly one and every
decoder hidden state, `Attention.forward` returns exactly `[1]`. -/
theorem attention_forward_singleton (p : AttentionParams) (hidden : List ℝ)
    (encoder_outputs : List (List ℝ)) (h : encoder_outputs.length = 1) :
    Attention.forward p hidden encoder_outputs = [1] := by
  obtain ⟨e, rfl⟩ := List.length_eq_one.mp h
  show softmax [dotV p.v ((linear p.attnW p.attnB (hidden ++ e)).map Real.tanh)] = [1]
  simp [softmax, Real.exp_ne_zero]

/-- Witness for C9 at a concrete single-timestep input. -/
theorem attention_forward_singleton_witness :
    Attention.forward ⟨[[1]], [0], [1]⟩ [(0 : ℝ)] [[(2 : ℝ)]] = [1] :=
  attention_forward_singleton ⟨[[1]], [0], [1]⟩ [(0 : ℝ)] [[(2 : ℝ)]] (by decide)

/-- C7: the encoder and decoder forward passes are deterministic — with the
randomness stream made explicit, two runs on the same parameters and inputs
agree exactly, and the stream is returned unconsumed (no randomness is drawn
at inference time; the dropout layers are constructed but never applied in
`forward`). -/
theorem forward_passes_deterministic :
    ∀ (ep : EncoderParams) (inp : List Nat) (r1 r2 : List ℝ)
      (dp : DecoderParams) (tok : Nat) (h c : List ℝ) (eo : List (List ℝ)),
    (Encoder.forwardRng ep inp r1).1 = (Encoder.forwardRng ep inp r2).1 ∧
    (Encoder.forwardRng ep inp r1).2 = r1 ∧
    (Decoder.forwardRng dp tok h c eo r1).1 = (Decoder.forwardRng dp tok h c eo r2).1 ∧
    (Decoder.forwardRng dp tok h c eo r1).2 = r1 := by
  intro ep inp r1 r2 dp tok h c eo
  exact ⟨rfl, rfl, rfl, rfl⟩

/-- C8: for in-range draws, `generate_problem` never surfaces a division by
zero: the result is always defined (the `"undefined"` branch of
`result_word` is never taken), and when the chosen operation is division the
divisor actually used is a nonzero integer in `[1, 100]` and the result is
the quotient rounded to two decimal places. -/
theorem generate_problem_division_safe (num1 num2 resample : Nat) (opIdx : Fin 4)
    (h1 : 1 ≤ num1 ∧ num1 ≤ 100) (h2 : 1 ≤ num2 ∧ num2 ≤ 100)
    (h3 : 1 ≤ resample ∧ resample ≤ 100) :
    (generate_problem num1 num2 resample opIdx).result.isSome = true ∧
    (∀ n2w : ℚ → String, ∃ q,
      (generate_problem num1 num2 resample opIdx).result = some q ∧
      result_word n2w (generate_problem num1 num2 resample opIdx).result = n2w q) ∧
    ((generate_problem num1 num2 resample opIdx).opName = "divided by" →
      (generate_problem num1 num2 resample opIdx).num2used ≠ 0 ∧
      1 ≤ (generate_problem num1 num2 resample opIdx).num2used ∧
      (generate_problem num1 num2 resample opIdx).num2used ≤ 100 ∧
      (generate_problem num1 num2 resample opIdx).result =
        some (pyRound2 ((num1 : ℚ) /
          ((generate_problem num1 num2 resample opIdx).num2used : ℚ)))) := by
  have hn2 : num2 ≠ 0 := by omega
  have hq : (num2 : ℚ) ≠ 0 := Nat.cast_ne_zero.mpr hn2
  obtain ⟨v, hv⟩ := opIdx
  interval_cases v <;>
    dsimp only [generate_problem, operations, List.get] <;>
    simp [result_word, hn2, hq] <;>
    omega

/-- Witness for C8 at `7 divided by 2` (answer `3.5`). -/
theorem generate_problem_division_safe_witness :
    (generate_problem 7 2 1 3).result.isSome = true ∧
    (∀ n2w : ℚ → String, ∃ q,
      (generate_problem 7 2 1 3).result = some q ∧
      result_word n2w (generate_problem 7 2 1 3).result = n2w q) ∧
    ((generate_problem 7 2 1 3).opName = "divided by" →
      (generate_problem 7 2 1 3).num2used ≠ 0 ∧
      1 ≤ (generate_problem 7 2 1 3).num2used ∧
      (generate_problem 7 2 1 3).num2used ≤ 100 ∧
      (generate_problem 7 2 1 3).result =
        some (pyRound2 ((7 : ℚ) / ((generate_problem 7 2 1 3).num2used : ℚ)))) :=
  generate_problem_division_safe 7 2 1 3 (by decide) (by decide) (by decide)

/-! ### Vocabulary lemmas -/

theorem lookup_append {w : String} {id : Nat} (v rest : List (String × Nat))
    (h : List.lookup w v = some id) : List.lookup w (v ++ rest) = some id := by
  induction v with
  | nil => simp [List.lookup] at h
  | cons a v ih =>
      obtain ⟨k, b⟩ := a
      rw [List.cons_append]
      by_cases hw : w = k
      · subst hw
        simpa [List.lookup] using h
      · have hbeq : (w == k) = false := beq_eq_false_iff_ne.mpr hw
        simp only [List.lookup, hbeq] at h ⊢
        exact ih h

theorem vstep_extends (v : List (String × Nat)) (w : String) : v <+: vstep v w := by
  unfold vstep
  split
  · exact List.prefix_refl _
  · exact List.prefix_append v _

theorem foldl_vstep_extends (ws : List String) (v : List (String × Nat)) :
    v <+: ws.foldl vstep v := by
  induction ws generalizing v with
  | nil => exact List.prefix_refl _
  | cons w ws ih => exact (vstep_extends v w).trans (ih (vstep v w))

theorem tokenize_foldl_snd (ws : List String) : ∀ (t : List Nat) (v : List (String × Nat)),
    (ws.foldl (fun acc word =>
        (acc.1 ++ [(List.lookup word (vstep acc.2 word)).getD 0], vstep acc.2 word))
      (t, v)).2 = ws.foldl vstep v := by
  induction ws with
  | nil => intro t v; rfl
  | cons w ws ih => intro t v; exact ih _ _

theorem tokenize_snd (s : List String) (v : List (String × Nat)) :
    (tokenize s v).2 = (s.map lower).foldl vstep v :=
  tokenize_foldl_snd (s.map lower) [] v

theorem vstep_snd_range (v : List (String × Nat)) (w : String)
    (h : v.map Prod.snd = List.range v.length) :
    (vstep v w).map Prod.snd = List.range (vstep v w).length := by
  unfold vstep
  split
  · exact h
  · simp [h, List.range_succ]

theorem foldl_vstep_snd_range (ws : List String) (v : List (String × Nat))
    (h : v.map Prod.snd = List.range v.length) :
    (ws.foldl vstep v).map Prod.snd = List.range (ws.foldl vstep v).length := by
  induction ws generalizing v with
  | nil => exact h
  | cons w ws ih => exact ih (vstep v w) (vstep_snd_range v w h)

theorem lookup_mem_snd {w : String} {id : Nat} :
    ∀ (v : List (String × Nat)), List.lookup w v = some id → id ∈ v.map Prod.snd := by
  intro v
  induction v with
  | nil => intro h; simp [List.lookup] at h
  | cons a v ih =>
      obtain ⟨k, b⟩ := a
      intro h
      by_cases hw : w = k
      · subst hw
        simp [List.lookup] at h
        simp [h]
      · have hbeq : (w == k) = false := beq_eq_false_iff_ne.mpr hw
        simp only [List.lookup, hbeq] at h
        simp [ih h]

theorem lookup_none_of_not_mem_fst {k : Nat} :
    ∀ (m : List (Nat × String)), k ∉ m.map Prod.fst → List.lookup k m = none := by
  intro m
  induction m with
  | nil => intro _; rfl
  | cons a m ih =>
      obtain ⟨j, w⟩ := a
      intro h
      simp only [List.map_cons, List.mem_cons, not_or] at h
      have hbeq : (k == j) = false := beq_eq_false_iff_ne.mpr h.1
      simp only [List.lookup, hbeq]
      exact ih h.2

theorem dict_build_swap :
    ∀ (v : List (String × Nat)) (m : List (Nat × String)),
      (v.map Prod.snd).Nodup → (∀ k ∈ m.map Prod.fst, k ∉ v.map Prod.snd) →
      v.foldl (fun m p => dictSet m p.2 p.1) m = m ++ v.map (fun p => (p.2, p.1)) := by
  intro v
  induction v with
  | nil => intro m _ _; simp
  | cons a v ih =>
      intro m hnd hdisj
      have hks : a.2 ∉ m.map Prod.fst := by
        intro hmem
        exact hdisj a.2 hmem (by simp)
      have hstep : dictSet m a.2 a.1 = m ++ [(a.2, a.1)] := by
        unfold dictSet
        rw [lookup_none_of_not_mem_fst m hks]
        rfl
      have hcons := hnd
      rw [List.map_cons, List.nodup_cons] at hcons
      have hnd' : (v.map Prod.snd).Nodup := hcons.2
      have hhead : a.2 ∉ v.map Prod.snd := hcons.1
      have hdisj' : ∀ k ∈ (m ++ [(a.2, a.1)]).map Prod.fst, k ∉ v.map Prod.snd := by
        intro k hk
        simp only [List.map_append, List.mem_append, List.map_cons, List.map_nil,
          List.mem_singleton] at hk
        rcases hk with hk | hk
        · intro hmem
          exact hdisj k hk (by simp [hmem])
        · subst hk
          exact hhead
      calc ((a :: v).foldl (fun m p => dictSet m p.2 p.1) m)
          = v.foldl (fun m p => dictSet m p.2 p.1) (m ++ [(a.2, a.1)]) := by
            rw [List.foldl_cons, hstep]
        _ = (m ++ [(a.2, a.1)]) ++ v.map (fun p => (p.2, p.1)) := ih _ hnd' hdisj'
        _ = m ++ ((a :: v).map (fun p => (p.2, p.1))) := by simp

theorem lookup_swap :
    ∀ (v : List (String × Nat)) (w : String) (id : Nat),
      (v.map Prod.snd).Nodup → List.lookup w v = some id →
      List.lookup id (v.map (fun p => (p.2, p.1))) = some w := by
  intro v
  induction v with
  | nil => intro w id _ h; simp [List.lookup] at h
  | cons a v ih =>
      obtain ⟨k, b⟩ := a
      intro w id hnd hl
      by_cases hw : w = k
      · subst hw
        simp only [List.lookup, beq_self_eq_true] at hl
        obtain rfl : b = id := by simpa using hl
        simp [List.lookup]
      · have hbeq : (w == k) = false := beq_eq_false_iff_ne.mpr hw
        simp only [List.lookup, hbeq] at hl
        have hmem : id ∈ v.map Prod.snd := lookup_mem_snd v hl
        have hcons := hnd
        rw [List.map_cons, List.nodup_cons] at hcons
        have hne : id ≠ b := fun hcon => hcons.1 (hcon ▸ hmem)
        have hbeq' : (id == b) = false := beq_eq_false_iff_ne.mpr hne
        simp only [List.map_cons, List.lookup, hbeq']
        exact ih w id hcons.2 hl

theorem index_to_word_lookup (v : List (String × Nat))
    (hids : v.map Prod.snd = List.range v.length) (w : String) (id : Nat)
    (h : List.lookup w v = some id) :
    List.lookup id (index_to_word v) = some w := by
  have hnd : (v.map Prod.snd).Nodup := by rw [hids]; exact List.nodup_range _
  have heq : index_to_word v = v.map (fun p => (p.2, p.1)) := by
    unfold index_to_word
    simpa using dict_build_swap v [] hnd (by simp)
  rw [heq]
  exact lookup_swap v w id hnd h

theorem corpusVocab_foldl_snd_range (ss : List (List String)) :
    ∀ (v : List (String × Nat)), v.map Prod.snd = List.range v.length →
    (ss.foldl (fun v s => (tokenize s v).2) v).map Prod.snd =
      List.range (ss.foldl (fun v s => (tokenize s v).2) v).length := by
  induction ss with
  | nil => intro v h; exact h
  | cons s ss ih =>
      intro v h
      simp only [List.foldl_cons]
      apply ih
      rw [tokenize_snd]
      exact foldl_vstep_snd_range _ v h

theorem corpusVocab_snd_range (ss : List (List String)) :
    (corpusVocab ss).map Prod.snd = List.range (corpusVocab ss).length :=
  corpusVocab_foldl_snd_range ss initialVocab (by decide)

/-- C4: `tokenize` grows the vocabulary monotonically: the old vocabulary is
a prefix of the new one, the id of every word already present is unchanged,
and ids equal positions (so every newly inserted word received the id
`len(vocab)` at the moment of its insertion), provided the incoming
vocabulary already satisfies the ids-equal-positions invariant. -/
theorem tokenize_vocab_monotone (s : List String) (w2i : List (String × Nat))
    (hids : w2i.map Prod.snd = List.range w2i.length) :
    w2i <+: (tokenize s w2i).2 ∧
    (∀ w id, List.lookup w w2i = some id → List.lookup w (tokenize s w2i).2 = some id) ∧
    (tokenize s w2i).2.map Prod.snd = List.range (tokenize s w2i).2.length := by
  rw [tokenize_snd]
  refine ⟨foldl_vstep_extends _ _, ?_, foldl_vstep_snd_range _ _ hids⟩
  intro w id hl
  obtain ⟨rest, hrest⟩ := foldl_vstep_extends (s.map lower) w2i
  rw [← hrest]
  exact lookup_append _ _ hl

/-- Witness for C4 at the reserved-token vocabulary and a one-word sentence. -/
theorem tokenize_vocab_monotone_witness :
    initialVocab.map Prod.snd = List.range initialVocab.length ∧
    (initialVocab <+: (tokenize ["two"] initialVocab).2 ∧
      (∀ w id, List.lookup w initialVocab = some id →
        List.lookup w (tokenize ["two"] initialVocab).2 = some id) ∧
      (tokenize ["two"] initialVocab).2.map Prod.snd =
        List.range (tokenize ["two"] initialVocab).2.length) :=
  ⟨by decide, tokenize_vocab_monotone ["two"] initialVocab (by decide)⟩

/-- C5: round-trip of the vocabulary maps: for every word inserted by
tokenizing a corpus from the reserved-token state,
`index_to_word[word_to_index[w]] == w`. -/
theorem index_to_word_roundtrip (sentences : List (List String)) (w : String) (id : Nat)
    (h : List.lookup w (corpusVocab sentences) = some id) :
    List.lookup id (index_to_word (corpusVocab sentences)) = some w :=
  index_to_word_lookup _ (corpusVocab_snd_range sentences) w id h

/-- Witness for C5 on the corpus `[["two"]]`, whose word `"two"` receives
id 3. -/
theorem index_to_word_roundtrip_witness :
    List.lookup "two" (corpusVocab [["two"]]) = some 3 ∧
    List.lookup 3 (index_to_word (corpusVocab [["two"]])) = some "two" :=
  ⟨by decide, index_to_word_roundtrip [["two"]] "two" 3 (by decide)⟩

/-! ### Greedy-decoding lemmas -/

theorem greedyLoop_length_le (p : DecoderParams) (encOuts : List (List ℝ)) (eos : Nat) :
    ∀ (fuel input : Nat) (h c : List ℝ),
      (greedyLoop p encOuts eos fuel input h c).length ≤ fuel := by
  intro fuel
  induction fuel with
  | zero => intro input h c; simp [greedyLoop]
  | succ fuel ih =>
      intro input h c
      rw [greedyLoop]
      split
      · simp
      · simpa using ih _ _ _

theorem greedyLoop_eos_not_mem (p : DecoderParams) (encOuts : List (List ℝ)) (eos : Nat) :
    ∀ (fuel input : Nat) (h c : List ℝ),
      eos ∉ greedyLoop p encOuts eos fuel input h c := by
  intro fuel
  induction fuel with
  | zero => intro input h c; simp [greedyLoop]
  | succ fuel ih =>
      intro input h c
      rw [greedyLoop]
      split
      · simp
      · next hne =>
          intro hmem
          rcases List.mem_cons.mp hmem with hmem | hmem
          · exact hne hmem.symm
          · exact ih _ _ _ hmem

theorem testLoop_length_le (p : DecoderParams) (encOuts : List (List ℝ)) (eos : Nat) :
    ∀ (fuel input : Nat) (h c : List ℝ),
      (testLoop p encOuts eos fuel input h c).1.length ≤ fuel := by
  intro fuel
  induction fuel with
  | zero => intro input h c; simp [testLoop]
  | succ fuel ih =>
      intro input h c
      rw [testLoop]
      split
      · simp
      · simpa using ih _ _ _

theorem testLoop_eos_not_mem (p : DecoderParams) (encOuts : List (List ℝ)) (eos : Nat) :
    ∀ (fuel input : Nat) (h c : List ℝ),
      eos ∉ (testLoop p encOuts eos fuel input h c).1 := by
  intro fuel
  induction fuel with
  | zero => intro input h c; simp [testLoop]
  | succ fuel ih =>
      intro input h c
      rw [testLoop]
      split
      · simp
      · next hne =>
          intro hmem
          rcases List.mem_cons.mp hmem with hmem | hmem
          · exact hne hmem.symm
          · exact ih _ _ _ hmem

theorem testLoop_snd_length (p : DecoderParams) (encOuts : List (List ℝ)) (eos : Nat) :
    ∀ (fuel input : Nat) (h c : List ℝ),
      (testLoop p encOuts eos fuel input h c).2.length =
      (testLoop p encOuts eos fuel input h c).1.length := by
  intro fuel
  induction fuel with
  | zero => intro input h c; simp [testLoop]
  | succ fuel ih =>
      intro input h c
      rw [testLoop]
      split
      · simp
      · simpa using ih _ _ _

theorem lookupTokens_isSome (w2i : List (String × Nat)) :
    ∀ (words : List String), (∀ w ∈ words, (List.lookup w w2i).isSome = true) →
      ∃ toks, lookupTokens w2i words = some toks := by
  intro words
  induction words with
  | nil => intro _; exact ⟨[], rfl⟩
  | cons w ws ih =>
      intro h
      obtain ⟨id, hid⟩ := Option.isSome_iff_exists.mp (h w (by simp))
      obtain ⟨rest, hrest⟩ := ih (fun x hx => h x (by simp [hx]))
      exact ⟨id :: rest, by simp [lookupTokens, hid, hrest]⟩

theorem lookupWords_length (i2w : List (Nat × String)) :
    ∀ (ts : List Nat) (out : List String),
      lookupWords i2w ts = some out → out.length = ts.length := by
  intro ts
  induction ts with
  | nil =>
      intro out h
      simp [lookupWords] at h
      simp [← h]
  | cons t ts ih =>
      intro out h
      rw [lookupWords] at h
      cases h1 : List.lookup t i2w with
      | none => rw [h1] at h; simp at h
      | some w =>
          cases h2 : lookupWords i2w ts with
          | none => rw [h1, h2] at h; simp at h
          | some rest =>
              rw [h1, h2] at h
              simp at h
              simp [← h, ih rest h2]

/-- C2: for every input sentence whose words are all in the vocabulary and
every `max_length ≥ 1`, greedy decoding succeeds and terminates within
`max_length` decoder steps, and the token sequence it builds never contains
the end-token id; the same bound and exclusion hold for the sequence built
by the inference loop of `test`. -/
theorem generate_predictions_bounded_no_eos (ep : EncoderParams) (dp : DecoderParams)
    (words : List String) (w2i : List (String × Nat)) (max_target_length sos eos : Nat)
    (hvocab : ∀ w ∈ words, (List.lookup w w2i).isSome = true)
    (hmax : 1 ≤ max_target_length) :
    (∃ out, generate_predictions ep dp words w2i max_target_length sos eos = some out ∧
      out.length ≤ max_target_length ∧ eos ∉ out) ∧
    (∀ (encOuts : List (List ℝ)) (input : Nat) (h c : List ℝ),
      (testLoop dp encOuts eos max_target_length input h c).1.length ≤ max_target_length ∧
      eos ∉ (testLoop dp encOuts eos max_target_length input h c).1) := by
  constructor
  · obtain ⟨toks, htoks⟩ := lookupTokens_isSome w2i words hvocab
    refine ⟨greedyLoop dp (Encoder.forward ep toks).1 eos max_target_length sos
      (Encoder.forward ep toks).2.1 (Encoder.forward ep toks).2.2, ?_, ?_, ?_⟩
    · simp [generate_predictions, htoks]
    · exact greedyLoop_length_le _ _ _ _ _ _ _
    · exact greedyLoop_eos_not_mem _ _ _ _ _ _ _
  · intro encOuts input h c
    exact ⟨testLoop_length_le _ _ _ _ _ _ _, testLoop_eos_not_mem _ _ _ _ _ _ _⟩

/-- Witness for C2 on a one-word sentence with trivial (empty-shape)
parameters. -/
theorem generate_predictions_bounded_no_eos_witness :
    (∀ w ∈ ["two"], (List.lookup w [("two", 3)]).isSome = true) ∧
    ((∃ out, generate_predictions ⟨⟨0, [], [], [], []⟩, []⟩ ⟨⟨0, [], [], [], []⟩, [], [], [], ⟨[], [], []⟩⟩
        ["two"] [("two", 3)] 5 0 1 = some out ∧ out.length ≤ 5 ∧ 1 ∉ out) ∧
      (∀ (encOuts : List (List ℝ)) (input : Nat) (h c : List ℝ),
        (testLoop ⟨⟨0, [], [], [], []⟩, [], [], [], ⟨[], [], []⟩⟩ encOuts 1 5 input h c).1.length ≤ 5 ∧
        1 ∉ (testLoop ⟨⟨0, [], [], [], []⟩, [], [], [], ⟨[], [], []⟩⟩ encOuts 1 5 input h c).1)) :=
  ⟨by decide, generate_predictions_bounded_no_eos ⟨⟨0, [], [], [], []⟩, []⟩
    ⟨⟨0, [], [], [], []⟩, [], [], [], ⟨[], [], []⟩⟩ ["two"] [("two", 3)] 5 0 1
    (by decide) (by decide)⟩

/-- C10: `test` never returns an empty sequence — when the decoder's very
first greedy prediction is already the end token, the empty list of
attention matrices makes `np.vstack` fail, so `test` errors out instead of
returning normally; a normal return therefore carries at least one non-end
token. -/
theorem test_fails_on_immediate_eos (ep : EncoderParams) (dp : DecoderParams)
    (words : List String) (w2i : List (String × Nat)) (i2w : List (Nat × String))
    (max_target_length sos eos : Nat) :
    (∀ out, test ep dp words w2i i2w max_target_length sos eos = some out → out ≠ []) ∧
    (∀ toks m, lookupTokens w2i words = some toks → max_target_length = m + 1 →
      argmax (Decoder.forward dp sos (Encoder.forward ep toks).2.1
        (Encoder.forward ep toks).2.2 (Encoder.forward ep toks).1).output = eos →
      test ep dp words w2i i2w max_target_length sos eos = none) := by
  constructor
  · intro out hout
    rw [test] at hout
    cases htoks : lookupTokens w2i words with
    | none => rw [htoks] at hout; simp at hout
    | some toks =>
        rw [htoks] at hout
        dsimp only at hout
        cases hin : lookupWords i2w toks with
        | none => rw [hin] at hout; simp at hout
        | some inWords =>
            cases hseq : lookupWords i2w
                (testLoop dp (Encoder.forward ep toks).1 eos max_target_length sos
                  (Encoder.forward ep toks).2.1 (Encoder.forward ep toks).2.2).1 with
            | none => rw [hin, hseq] at hout; simp at hout
            | some outWords =>
                rw [hin, hseq] at hout
                cases hmats : (testLoop dp (Encoder.forward ep toks).1 eos
                    max_target_length sos (Encoder.forward ep toks).2.1
                    (Encoder.forward ep toks).2.2).2 with
                | nil => rw [hmats] at hout; simp [vstack] at hout
                | cons mat rest =>
                    rw [hmats] at hout
                    simp [vstack] at hout
                    subst hout
                    have hlen2 := testLoop_snd_length dp (Encoder.forward ep toks).1 eos
                      max_target_length sos (Encoder.forward ep toks).2.1
                      (Encoder.forward ep toks).2.2
                    rw [hmats] at hlen2
                    have hpos : 0 < (testLoop dp (Encoder.forward ep toks).1 eos
                        max_target_length sos (Encoder.forward ep toks).2.1
                        (Encoder.forward ep toks).2.2).1.length := by
                      rw [← hlen2]; simp
                    have := lookupWords_length i2w _ _ hseq
                    intro hcon
                    rw [hcon] at this
                    simp at this
                    omega
  · intro toks m htoks hm heos
    subst hm
    rw [test, htoks]
    dsimp only
    have hloop : testLoop dp (Encoder.forward ep toks).1 eos (m + 1) sos
        (Encoder.forward ep toks).2.1 (Encoder.forward ep toks).2.2 = ([], []) := by
      rw [testLoop]
      simp [heos]
    rw [hloop]
    cases hin : lookupWords i2w toks with
    | none => rfl
    | some inWords => simp [lookupWords, vstack]

/-- Witness for C10: with zero-dimensional parameters and `eos = 0`, the
first argmax prediction is `0`, and `test` indeed returns `none`. -/
theorem test_fails_on_immediate_eos_witness :
    (lookupTokens [] [] = some []) ∧
    (argmax (Decoder.forward ⟨⟨0, [], [], [], []⟩, [], [[]], [0], ⟨[], [], []⟩⟩ 0
      (Encoder.forward ⟨⟨0, [], [], [], []⟩, []⟩ []).2.1
      (Encoder.forward ⟨⟨0, [], [], [], []⟩, []⟩ []).2.2
      (Encoder.forward ⟨⟨0, [], [], [], []⟩, []⟩ []).1).output = 0) ∧
    test ⟨⟨0, [], [], [], []⟩, []⟩ ⟨⟨0, [], [], [], []⟩, [], [[]], [0], ⟨[], [], []⟩⟩
      [] [] [] 1 0 0 = none :=
  ⟨rfl, rfl,
    (test_fails_on_immediate_eos ⟨⟨0, [], [], [], []⟩, []⟩
      ⟨⟨0, [], [], [], []⟩, [], [[]], [0], ⟨[], [], []⟩⟩ [] [] [] 1 0 0).2
      [] 0 rfl rfl rfl⟩

/-! ### Training-loop lemmas -/

theorem trainGo_head {σ : Type} (d : List Nat → σ → List (List ℝ) × σ)
    (pad : Nat) (targets : List (List Nat)) (lengths : List Nat) :
    ∀ (fuel t : Nat) (inp : List Nat) (s : σ),
      (trainGo d pad targets lengths fuel t inp s).1 ≠ [] →
      (trainGo d pad targets lengths fuel t inp s).1.getD 0 [] = inp := by
  intro fuel
  cases fuel with
  | zero => intro t inp s h; simp [trainGo] at h
  | succ fuel =>
      intro t inp s h
      by_cases hc : (lengths.any (fun l => decide (t < l))) = true
      · rw [trainGo]
        simp [hc]
      · rw [trainGo] at h
        simp [hc] at h

theorem trainGo_inputs_getD {σ : Type} (d : List Nat → σ → List (List ℝ) × σ)
    (pad : Nat) (targets : List (List Nat)) (lengths : List Nat) :
    ∀ (fuel t k : Nat) (inp : List Nat) (s : σ),
      k + 1 < (trainGo d pad targets lengths fuel t inp s).1.length →
      (trainGo d pad targets lengths fuel t inp s).1.getD (k + 1) [] =
        column targets (t + k) := by
  intro fuel
  induction fuel with
  | zero => intro t k inp s h; simp [trainGo] at h
  | succ fuel ih =>
      intro t k inp s h
      by_cases hc : (lengths.any (fun l => decide (t < l))) = true
      · rw [trainGo] at h ⊢
        simp only [hc, if_true] at h ⊢
        cases k with
        | zero =>
            have hne : (trainGo d pad targets lengths fuel (t + 1)
                (column targets t) (d inp s).2).1 ≠ [] := by
              intro hcon
              rw [hcon] at h
              simp at h
            have hhead := trainGo_head d pad targets lengths fuel (t + 1)
              (column targets t) (d inp s).2 hne
            simpa using hhead
        | succ k' =>
            have h' : k' + 1 < (trainGo d pad targets lengths fuel (t + 1)
                (column targets t) (d inp s).2).1.length := by
              simpa using h
            have := ih (t + 1) k' (column targets t) (d inp s).2 h'
            have harith : t + 1 + k' = t + (k' + 1) := by omega
            rw [harith] at this
            simpa using this
      · rw [trainGo] at h
        simp [hc] at h

theorem trainGo_inputs_indep {σ σ' : Type} (d : List Nat → σ → List (List ℝ) × σ)
    (d' : List Nat → σ' → List (List ℝ) × σ')
    (pad : Nat) (targets : List (List Nat)) (lengths : List Nat) :
    ∀ (fuel t : Nat) (inp : List Nat) (s : σ) (s' : σ'),
      (trainGo d pad targets lengths fuel t inp s).1 =
      (trainGo d' pad targets lengths fuel t inp s').1 := by
  intro fuel
  induction fuel with
  | zero => intro t inp s s'; rfl
  | succ fuel ih =>
      intro t inp s s'
      by_cases hc : (lengths.any (fun l => decide (t < l))) = true
      · rw [trainGo, trainGo]
        simp only [hc, if_true]
        simpa using ih (t + 1) (column targets t) (d inp s).2 (d' inp s').2
      · rw [trainGo, trainGo]
        simp [hc]

/-- C6: teacher forcing — at every executed timestep `t` of the batch loop,
the decoder input used at timestep `t + 1` is the ground-truth target column
at position `t`, and the whole sequence of decoder inputs is independent of
the decoder (hence of whatever it predicted). -/
theorem train_teacher_forcing {σ : Type} (d : List Nat → σ → List (List ℝ) × σ)
    (s0 : σ) (pad sos : Nat) (targets : List (List Nat)) (t : Nat)
    (h : t + 1 < (train d pad sos targets s0).1.length) :
    (train d pad sos targets s0).1.getD (t + 1) [] = column targets t ∧
    (∀ (σ' : Type) (d' : List Nat → σ' → List (List ℝ) × σ') (s0' : σ'),
      (train d pad sos targets s0).1 = (train d' pad sos targets s0').1) := by
  constructor
  · have := trainGo_inputs_getD d pad targets (targetLengths pad targets)
      (maxTargetLength (targetLengths pad targets)) 0 t
      (List.replicate targets.length sos) s0 (by simpa [train] using h)
    simpa [train] using this
  · intro σ' d' s0'
    exact trainGo_inputs_indep d d' pad targets (targetLengths pad targets)
      (maxTargetLength (targetLengths pad targets)) 0
      (List.replicate targets.length sos) s0 s0'

/-- Witness for C6 on the one-example batch `[[3, 4]]` with a constant
decoder. -/
theorem train_teacher_forcing_witness :
    0 + 1 < (train (fun (_ : List Nat) (_ : Unit) => ([([] : List ℝ)], ()))
      2 0 [[3, 4]] ()).1.length ∧
    ((train (fun (_ : List Nat) (_ : Unit) => ([([] : List ℝ)], ()))
        2 0 [[3, 4]] ()).1.getD (0 + 1) [] = column [[3, 4]] 0 ∧
      (∀ (σ' : Type) (d' : List Nat → σ' → List (List ℝ) × σ') (s0' : σ'),
        (train (fun (_ : List Nat) (_ : Unit) => ([([] : List ℝ)], ()))
          2 0 [[3, 4]] ()).1 = (train d' 2 0 [[3, 4]] s0').1)) :=
  ⟨by decide, train_teacher_forcing (fun _ _ => ([[]], ())) () 2 0 [[3, 4]] 0 (by decide)⟩

/-! ### Masked-loss lemmas -/

theorem sum_map_mul_const (c : ℝ) (l : List ℝ) :
    (l.map (fun a => c * a)).sum = c * l.sum := by
  induction l with
  | nil => simp
  | cons a l ih => simp [ih, mul_add]

theorem zipWith_sum_congr {α β : Type} (f g : α → β → ℝ) :
    ∀ (l1 : List α) (l2 : List β),
      (∀ a ∈ l1, ∀ b ∈ l2, f a b = g a b) →
      (List.zipWith f l1 l2).sum = (List.zipWith g l1 l2).sum := by
  intro l1
  induction l1 with
  | nil => intro l2 _; simp
  | cons a l1 ih =>
      intro l2 h
      cases l2 with
      | nil => simp
      | cons b l2 =>
          simp only [List.zipWith_cons_cons, List.sum_cons]
          rw [h a (by simp) b (by simp),
            ih l2 (fun x hx y hy => h x (by simp [hx]) y (by simp [hy]))]

theorem all_pad_getD (pad : Nat) :
    ∀ (row : List Nat) (t : Nat), (∀ y ∈ row, y = pad) → t < row.length →
      row.getD t 0 = pad := by
  intro row
  induction row with
  | nil => intro t _ ht; simp at ht
  | cons x xs ih =>
      intro t hall ht
      cases t with
      | zero => simpa using hall x (by simp)
      | succ t' =>
          rw [List.getD_cons_succ]
          exact ih t' (fun y hy => hall y (by simp [hy])) (by simpa using ht)

theorem row_active_iff (pad : Nat) :
    ∀ (row : List Nat) (t : Nat), paddedOk pad row = true → t < row.length →
      (row.getD t 0 ≠ pad ↔ t < row.countP (fun y => decide (y ≠ pad))) := by
  intro row
  induction row with
  | nil => intro t _ ht; simp at ht
  | cons x xs ih =>
      intro t hok ht
      by_cases hx : x = pad
      · subst hx
        rw [paddedOk, if_pos rfl] at hok
        have hall : ∀ y ∈ xs, y = x := by simpa using hok
        have hcnt : (x :: xs).countP (fun y => decide (y ≠ x)) = 0 := by
          apply List.countP_eq_zero.mpr
          intro a ha
          rcases List.mem_cons.mp ha with rfl | ha
          · simp
          · simp [hall a ha]
        rw [hcnt]
        simp only [Nat.not_lt_zero, iff_false, not_not]
        cases t with
        | zero => rfl
        | succ t' =>
            rw [List.getD_cons_succ]
            exact all_pad_getD x xs t' hall (by simpa using ht)
      · have hbok : paddedOk pad xs = true := by
          rw [paddedOk] at hok
          rwa [if_neg hx] at hok
        have hcnt : (x :: xs).countP (fun y => decide (y ≠ pad)) =
            xs.countP (fun y => decide (y ≠ pad)) + 1 := by
          rw [List.countP_cons]
          simp [hx]
        cases t with
        | zero => simp [hx, hcnt]
        | succ t' =>
            rw [hcnt, List.getD_cons_succ,
              ih t' hbok (by simpa using ht)]
            omega

theorem countP_bnot_eq_ne (pad : Nat) (row : List Nat) :
    row.countP (fun y => !decide (y = pad)) = row.countP (fun y => decide (y ≠ pad)) :=
  List.countP_congr (fun y _ => by simp)

theorem stillActiveF_sum (lengths : List Nat) (t : Nat) :
    (stillActiveF lengths t).sum = (activeCount lengths t : ℝ) := by
  induction lengths with
  | nil => simp [stillActiveF, activeCount]
  | cons l ls ih =>
      rw [stillActiveF, List.map_cons, List.sum_cons, activeCount, List.countP_cons]
      rw [show (List.map (fun l => if t < l then (1 : ℝ) else 0) ls) = stillActiveF ls t
        from rfl, ih, activeCount]
      by_cases h : t < l
      · rw [if_pos h, if_pos (by simpa using h)]
        push_cast
        ring
      · rw [if_neg h, if_neg (by simpa using h)]
        push_cast
        ring

theorem stepLoss_eq_maskedMean (pad L t : Nat) (targets : List (List Nat))
    (outputs : List (List ℝ))
    (hrow : ∀ row ∈ targets, paddedOk pad row = true)
    (hlen : ∀ row ∈ targets, row.length = L)
    (hact : activeCount (targetLengths pad targets) t ≠ 0) :
    stepLoss pad (targetLengths pad targets) t outputs (column targets t) =
    maskedMeanSpec pad (targetLengths pad targets) t outputs (column targets t) := by
  have htL : t < L := by
    have hpos : 0 < (targetLengths pad targets).countP (fun l => decide (t < l)) :=
      Nat.pos_of_ne_zero hact
    obtain ⟨l, hl, hdec⟩ := List.countP_pos_iff.mp hpos
    simp only [targetLengths, List.mem_map] at hl
    obtain ⟨row, hrowmem, rfl⟩ := hl
    have hle : row.countP (fun y => decide (y ≠ pad)) ≤ row.length :=
      List.countP_le_length _
    have hL := hlen row hrowmem
    simp only [decide_eq_true_eq] at hdec
    omega
  have hS : ((activeCount (targetLengths pad targets) t : Nat) : ℝ) ≠ 0 :=
    Nat.cast_ne_zero.mpr hact
  rw [stepLoss, sum_map_mul_const, stillActiveF_sum, mul_div_assoc, div_self hS, mul_one]
  rw [criterionMean, maskedMeanSpec]
  have hrowiff : ∀ row ∈ targets,
      (row.getD t 0 ≠ pad ↔ t < row.countP (fun y => decide (y ≠ pad))) := by
    intro row hrowmem
    exact row_active_iff pad row t (hrow row hrowmem)
      (by rw [hlen row hrowmem]; exact htL)
  have hnum : (List.zipWith (fun o y => if y = pad then 0 else crossEntropy o y)
        outputs (column targets t)).sum =
      (List.zipWith (fun o ly => if t < ly.1 then crossEntropy o ly.2 else 0)
        outputs ((targetLengths pad targets).zip (column targets t))).sum := by
    simp only [targetLengths, column, List.zip_map', List.zipWith_map_right]
    apply zipWith_sum_congr
    intro o _ row hrowmem
    by_cases hp : row.getD t 0 = pad
    · have hnlt : ¬ t < row.countP (fun y => decide (y ≠ pad)) :=
        fun hlt => ((hrowiff row hrowmem).mpr hlt) hp
      rw [List.getD_eq_getElem?_getD] at hp
      rw [← countP_bnot_eq_ne] at hnlt
      simp [hp, hnlt]
    · have hlt : t < row.countP (fun y => decide (y ≠ pad)) :=
        (hrowiff row hrowmem).mp hp
      rw [List.getD_eq_getElem?_getD] at hp
      rw [← countP_bnot_eq_ne] at hlt
      simp [hp, hlt]
  have hden : (column targets t).countP (fun y => decide (y ≠ pad)) =
      activeCount (targetLengths pad targets) t := by
    simp only [column, activeCount, targetLengths, List.countP_map]
    apply List.countP_congr
    intro row hrowmem
    simp only [Function.comp_apply, decide_eq_true_eq]
    exact hrowiff row hrowmem
  rw [hnum, hden]

theorem trainGo_loss {σ : Type} (d : List Nat → σ → List (List ℝ) × σ)
    (pad L : Nat) (targets : List (List Nat))
    (hrow : ∀ row ∈ targets, paddedOk pad row = true)
    (hlen : ∀ row ∈ targets, row.length = L) :
    ∀ (fuel t : Nat) (inp : List Nat) (s : σ),
      (trainGo d pad targets (targetLengths pad targets) fuel t inp s).2.2 =
      (((trainGo d pad targets (targetLengths pad targets) fuel t inp s).2.1.enumFrom t).map
        (fun p => maskedMeanSpec pad (targetLengths pad targets) p.1 p.2
          (column targets p.1))).sum := by
  intro fuel
  induction fuel with
  | zero => intro t inp s; simp [trainGo]
  | succ fuel ih =>
      intro t inp s
      by_cases hc : ((targetLengths pad targets).any (fun l => decide (t < l))) = true
      · have hact : activeCount (targetLengths pad targets) t ≠ 0 := by
          obtain ⟨l, hl, hdec⟩ := List.any_eq_true.mp hc
          have hpos : 0 < (targetLengths pad targets).countP (fun l => decide (t < l)) :=
            List.countP_pos_iff.mpr ⟨l, hl, hdec⟩
          simp only [activeCount]
          omega
        rw [trainGo]
        simp only [hc, if_true]
        rw [List.enumFrom_cons]
        simp only [List.map_cons, List.sum_cons]
        rw [ih (t + 1) (column targets t) (d inp s).2]
        rw [stepLoss_eq_maskedMean pad L t targets (d inp s).1 hrow hlen hact]
      · rw [trainGo]
        simp [hc]

/-- C1: in the timestep loop of `train`, the loss the code adds at an active
timestep `t` — `(criterion(output, target_seq[:, t]) * still_active.float()).sum()
/ still_active.sum()` with the ignore-pad criterion — equals the mean over
exactly the still-active examples of the per-example cross-entropy at `t`
(inactive examples contributing zero), and the batch loss is the sum of
these per-step masked means over the executed steps, for any batch of
equal-length, contiguously padded target rows. -/
theorem train_loss_masked_mean {σ : Type} (d : List Nat → σ → List (List ℝ) × σ)
    (s0 : σ) (pad sos : Nat) (targets : List (List Nat)) (L : Nat)
    (hrow : ∀ row ∈ targets, paddedOk pad row = true)
    (hlen : ∀ row ∈ targets, row.length = L) :
    (∀ (t : Nat) (outputs : List (List ℝ)),
      activeCount (targetLengths pad targets) t ≠ 0 →
      stepLoss pad (targetLengths pad targets) t outputs (column targets t) =
      maskedMeanSpec pad (targetLengths pad targets) t outputs (column targets t)) ∧
    (train d pad sos targets s0).2.2 =
      (((train d pad sos targets s0).2.1.enum).map
        (fun p => maskedMeanSpec pad (targetLengths pad targets) p.1 p.2
          (column targets p.1))).sum := by
  constructor
  · intro t outputs hact
    exact stepLoss_eq_maskedMean pad L t targets outputs hrow hlen hact
  · rw [List.enum_eq_enumFrom, train]
    exact trainGo_loss d pad L targets hrow hlen _ 0 _ s0

/-- Witness for C1 on a two-example batch with one padded row. -/
theorem train_loss_masked_mean_witness :
    (∀ row ∈ [[3, 4], [5, 2]], paddedOk 2 row = true) ∧
    (∀ row ∈ [[3, 4], [5, 2]], row.length = 2) ∧
    ((∀ (t : Nat) (outputs : List (List ℝ)),
      activeCount (targetLengths 2 [[3, 4], [5, 2]]) t ≠ 0 →
      stepLoss 2 (targetLengths 2 [[3, 4], [5, 2]]) t outputs
        (column [[3, 4], [5, 2]] t) =
      maskedMeanSpec 2 (targetLengths 2 [[3, 4], [5, 2]]) t outputs
        (column [[3, 4], [5, 2]] t)) ∧
    (train (fun (_ : List Nat) (_ : Unit) => ([([] : List ℝ), []], ()))
        2 0 [[3, 4], [5, 2]] ()).2.2 =
      (((train (fun (_ : List Nat) (_ : Unit) => ([([] : List ℝ), []], ()))
          2 0 [[3, 4], [5, 2]] ()).2.1.enum).map
        (fun p => maskedMeanSpec 2 (targetLengths 2 [[3, 4], [5, 2]]) p.1 p.2
          (column [[3, 4], [5, 2]] p.1))).sum) :=
  ⟨by decide, by decide,
    train_loss_masked_mean (fun _ _ => ([[], []], ())) () 2 0 [[3, 4], [5, 2]] 2
      (by decide) (by decide)⟩

end MathAssistant
